import Mathlib

/-!
Shallow embedding of the duplicate-file detection engine of the Archivizm
repository: `DuplicateFinderThread` and `DuplicateFinder` from
src/Archivizm.py, and the standalone variant in src/DupeCheck.py.

Modelling conventions:
* a file path is a `String`; a fingerprint (MD5 hex digest) is a `String`;
  file bytes are `List Nat`;
* the MD5 digest itself is kept abstract as a function `H : Content → Fp`
  applied to the whole byte stream; the incremental `hashlib` update loop is
  modelled explicitly as a fold that appends chunks;
* the filesystem is a function `rf : Path → Option (List Content)` giving the
  sequence of chunks the 8192-byte chunked read of a file produces, or `none`
  when some read step raises (unreadable file) — `open`/`read` are the only
  fallible operations in the worker;
* Python dicts are association lists with unique keys, in insertion order;
  `alookup` is key lookup, `aupdate` is assignment to an existing key
  (keeping its position), appending models assignment to a fresh key;
* the nondeterministic completion order of the `as_completed` worker pool is
  modelled by taking the result arrival order (a permutation of the
  enumeration order) as an explicit input list;
* the emitted Qt signals of one scan are modelled as one event list;
  `progress.emit(int((processed / total) * 100))` is modelled with exact
  rational floor `processed * 100 / total`.  (CPython computes the value in
  binary floating point, which can differ from the exact floor by one for
  some `processed/total` ratios; every property proved below — monotonicity,
  event counts, final value 100 when `processed = total` where the float
  value `100.0` is exact — is insensitive to that difference, and all
  concrete counterexamples use ratios that are exact in floating point.)
-/

namespace Archivizm

/-- File paths. -/
abbrev Path := String

/-- Fingerprints (MD5 hex digests). -/
abbrev Fp := String

/-- A chunk of file bytes. -/
abbrev Content := List Nat

/-- First-match lookup in an association list: models Python dict read
(`d[k]`, and `k in d` via `(alookup l k).isSome`). -/
def alookup {β : Type} : List (Fp × β) → Fp → Option β
  | [], _ => none
  | e :: l, k => if e.1 = k then some e.2 else alookup l k

/-- Replace the value at a key: models Python `d[k] = v` when `k in d`
(the entry keeps its dict position). -/
def aupdate {β : Type} (l : List (Fp × β)) (k : Fp) (v : β) : List (Fp × β) :=
  l.map (fun e => if e.1 = k then (k, v) else e)

/-- The `hashlib.md5()` object after the chunked-update loop: each
`file_hash.update(chunk)` appends the chunk to the absorbed byte stream,
and `hexdigest()` applies the digest `H` to the whole stream. -/
def hashChunks (H : Content → Fp) (chunks : List Content) : Fp :=
  H (chunks.foldl (fun st c => st ++ c) [])

namespace DuplicateFinderThread

/-- `DuplicateFinderThread.md5` (src/Archivizm.py lines 750-766): open the
file, fold each 8 KiB chunk into the hash, return `(hexdigest, path)`;
the surrounding `try/except Exception` turns any read failure into
`(None, path)`. -/
def md5 (H : Content → Fp) (rf : Path → Option (List Content)) (p : Path) :
    Option Fp × Path :=
  match rf p with
  | some chunks => (some (hashChunks H chunks), p)
  | none => (none, p)

/-- The two dicts the aggregation loop of `run` mutates: `hashes` maps each
fingerprint to the first path that produced it, `duplicates` maps a
fingerprint seen at least twice to the list of its paths. -/
structure AggState where
  hashes : List (Fp × Path)
  duplicates : List (Fp × List Path)
deriving DecidableEq

/-- Both dicts start empty (src/Archivizm.py lines 775-776). -/
def emptyAgg : AggState := ⟨[], []⟩

/-- One iteration of the result-consumption loop (src/Archivizm.py lines
795-803).  `if file_hash:` is the `none` test (an MD5 hex digest is never
the empty string), then `if file_hash in hashes`, then
`if file_hash in duplicates`: append to the existing group, or create the
group `[hashes[file_hash], file_path]`, or record the first path. -/
def aggStep (st : AggState) (r : Option Fp × Path) : AggState :=
  match r.1 with
  | none => st
  | some h =>
    match alookup st.hashes h with
    | some firstPath =>
      match alookup st.duplicates h with
      | some grp => ⟨st.hashes, aupdate st.duplicates h (grp ++ [r.2])⟩
      | none => ⟨st.hashes, st.duplicates ++ [(h, [firstPath, r.2])]⟩
    | none => ⟨st.hashes ++ [(h, r.2)], st.duplicates⟩

/-- The whole aggregation loop over the results in completion order. -/
def runAgg (rs : List (Option Fp × Path)) : AggState :=
  rs.foldl aggStep emptyAgg

/-- The results the pool delivers when the futures complete in the order
`arrival` (a permutation of the enumerated file list). -/
def scanResults (H : Content → Fp) (rf : Path → Option (List Content))
    (arrival : List Path) : List (Option Fp × Path) :=
  arrival.map (md5 H rf)

/-- The percentage values `int((processed / total) * 100)` emitted for
`processed = 1, ..., total` (src/Archivizm.py line 794), as exact floors. -/
def progressSeq (total : Nat) : List Nat :=
  (List.range total).map (fun k => (k + 1) * 100 / total)

/-- A Qt signal emission of one scan: a `progress` percentage or the
terminal `finished` dict. -/
inductive Event where
  | progress (v : Nat)
  | finished (d : List (Fp × List Path))
deriving DecidableEq

/-- `DuplicateFinderThread.run` (src/Archivizm.py lines 768-808) as the
sequence of signals it emits: with no files enumerated it emits
`finished({})` at once (lines 785-787); otherwise one progress value per
consumed result, then `finished(duplicates)`. -/
def run (H : Content → Fp) (rf : Path → Option (List Content))
    (arrival : List Path) : List Event :=
  if arrival.length = 0 then [Event.finished []]
  else (progressSeq arrival.length).map Event.progress
    ++ [Event.finished (runAgg (scanResults H rf arrival)).duplicates]

/-- The dict carried by the terminal `finished` signal. -/
def duplicatesOf (H : Content → Fp) (rf : Path → Option (List Content))
    (arrival : List Path) : List (Fp × List Path) :=
  (runAgg (scanResults H rf arrival)).duplicates

/-- `self._result_all_hashes` after the scan (src/Archivizm.py line 806;
initialised to `{}` at line 748, which the zero-file early return leaves in
place, matching `runAgg [] = emptyAgg`). -/
def allHashesOf (H : Content → Fp) (rf : Path → Option (List Content))
    (arrival : List Path) : List (Fp × Path) :=
  (runAgg (scanResults H rf arrival)).hashes

end DuplicateFinderThread

namespace DuplicateFinder

/-- Outcome of pressing "find": either the early `return` with the
"Invalid directory selected." status message (no thread started), or the
`DuplicateFinderThread` started on the resolved directory. -/
inductive StartResult where
  | invalid
  | started (d : Path)
deriving DecidableEq

/-- `self.dir_input.text() or next((p.mountpoint ...), None)`
(src/Archivizm.py line 894): a non-empty text wins, otherwise the
mountpoint lookup which may itself yield nothing. -/
def resolveDirectory (text : String) (mountpoint : Option Path) : Option Path :=
  if text = "" then mountpoint else some text

/-- `DuplicateFinder.find_duplicates` (src/Archivizm.py lines 888-903):
`if not directory or not os.path.exists(directory)` show the status message
and return; otherwise construct and start the thread.  `pathExists` models
`os.path.exists`.  Note the code never consults `os.path.isdir`. -/
def find_duplicates (text : String) (mountpoint : Option Path)
    (pathExists : Path → Bool) : StartResult :=
  match resolveDirectory text mountpoint with
  | none => StartResult.invalid
  | some d =>
      if d = "" ∨ pathExists d = false then StartResult.invalid
      else StartResult.started d

/-- `DuplicateFinder.display_duplicates` (src/Archivizm.py lines 905-922):
`all_file_hashes` starts as a copy of the `duplicates` dict, then every
`(hash, first_path)` of `_result_all_hashes` whose hash is not yet a key is
appended as a singleton group. -/
def display_duplicates (dups : List (Fp × List Path))
    (allHashes : List (Fp × Path)) : List (Fp × List Path) :=
  allHashes.foldl
    (fun acc e => if (alookup acc e.1).isSome then acc else acc ++ [(e.1, [e.2])])
    dups

/-- The final all-files grouping of one scan, as shown by the "All Files"
filter: duplicate groups merged with singleton hashes. -/
def allGroupsOf (H : Content → Fp) (rf : Path → Option (List Content))
    (arrival : List Path) : List (Fp × List Path) :=
  display_duplicates (DuplicateFinderThread.duplicatesOf H rf arrival)
    (DuplicateFinderThread.allHashesOf H rf arrival)

end DuplicateFinder

end Archivizm

namespace DupeCheck

open Archivizm

/-- `md5` of src/DupeCheck.py lines 19-29: identical logic to
`DuplicateFinderThread.md5` (the `except` branch additionally prints the
error before returning `(None, path)`). -/
def md5 (H : Content → Fp) (rf : Path → Option (List Content)) (p : Path) :
    Option Fp × Path :=
  match rf p with
  | some chunks => (some (hashChunks H chunks), p)
  | none => (none, p)

/-- One iteration of the result loop of `find_duplicates`
(src/DupeCheck.py lines 59-64).  On a fingerprint already in `hashes` it
executes `duplicates[file_hash] = [hashes[file_hash]] + duplicates.get(file_hash, [])`:
the stored first path is prepended again, and the current `file_path` is
never added. -/
def dupeStep (st : DuplicateFinderThread.AggState) (r : Option Fp × Path) :
    DuplicateFinderThread.AggState :=
  match r.1 with
  | none => st
  | some h =>
    match alookup st.hashes h with
    | some firstPath =>
      match alookup st.duplicates h with
      | some grp => ⟨st.hashes, aupdate st.duplicates h (firstPath :: grp)⟩
      | none => ⟨st.hashes, st.duplicates ++ [(h, [firstPath])]⟩
    | none => ⟨st.hashes ++ [(h, r.2)], st.duplicates⟩

/-- `find_duplicates` of src/DupeCheck.py lines 31-66: hash every walked
file in the pool, consume results in completion order `arrival`, return the
`duplicates` dict. -/
def find_duplicates (H : Content → Fp) (rf : Path → Option (List Content))
    (arrival : List Path) : List (Fp × List Path) :=
  ((arrival.map (md5 H rf)).foldl dupeStep DuplicateFinderThread.emptyAgg).duplicates

end DupeCheck

namespace Archivizm

/-! ### Concrete test fixtures -/

/-- The bytes of "hello". -/
def helloBytes : Content := [104, 101, 108, 108, 111]

/-- The bytes of "world". -/
def worldBytes : Content := [119, 111, 114, 108, 100]

/-- A concrete, injective-on-our-fixtures digest: print the byte list. -/
def toyH : Content → Fp := fun c => toString c

/-- Filesystem of the spec scenario: `a.txt` = "hello", `b.txt` = "hello",
`c.txt` = "world". -/
def toyFS3 : Path → Option (List Content) := fun p =>
  if p = "a.txt" then some [helloBytes]
  else if p = "b.txt" then some [helloBytes]
  else if p = "c.txt" then some [worldBytes]
  else none

/-- Filesystem with two equal files `x.bin`, `y.bin` and nothing else. -/
def toyFS2 : Path → Option (List Content) := fun p =>
  if p = "x.bin" then some [helloBytes]
  else if p = "y.bin" then some [helloBytes]
  else none

/-- Filesystem where `bad.dat` is unreadable and `u.dat`, `v.dat`, `w.dat`
are readable, `u` and `v` equal. -/
def toyFSerr : Path → Option (List Content) := fun p =>
  if p = "bad.dat" then none
  else if p = "u.dat" then some [helloBytes]
  else if p = "v.dat" then some [helloBytes]
  else if p = "w.dat" then some [worldBytes]
  else none

/-! ### Dictionary lemmas -/

theorem alookup_append_single {β : Type} (l : List (Fp × β)) (k k' : Fp) (v : β) :
    alookup (l ++ [(k, v)]) k' =
      match alookup l k' with
      | some w => some w
      | none => if k = k' then some v else none := by
  induction l with
  | nil => simp [alookup]
  | cons e l ih =>
    by_cases he : e.1 = k'
    · simp [alookup, he]
    · simp [alookup, he, ih]

theorem aupdate_cons {β : Type} (e : Fp × β) (l : List (Fp × β)) (k : Fp) (v : β) :
    aupdate (e :: l) k v = (if e.1 = k then (k, v) else e) :: aupdate l k v := rfl

theorem alookup_aupdate {β : Type} (l : List (Fp × β)) (k k' : Fp) (v : β) :
    alookup (aupdate l k v) k' =
      if k' = k then (alookup l k).map (fun _ => v) else alookup l k' := by
  induction l with
  | nil => simp [alookup, aupdate]
  | cons e l ih =>
    rw [aupdate_cons]
    by_cases he : e.1 = k
    · by_cases hk : k' = k
      · subst hk; simp [alookup, he]
      · have hkk : ¬(k = k') := fun h => hk h.symm
        simp [alookup, he, hk, hkk, ih]
    · by_cases hek : e.1 = k'
      · have hk : ¬(k' = k) := fun h => he (hek.trans h)
        simp [alookup, he, hek, hk]
      · simp [alookup, he, hek, ih]

theorem alookup_eq_none {β : Type} (l : List (Fp × β)) (k : Fp) :
    alookup l k = none ↔ k ∉ l.map Prod.fst := by
  induction l with
  | nil => simp [alookup]
  | cons e l ih =>
    by_cases he : e.1 = k
    · simp [alookup, he]
    · have : ¬(k = e.1) := fun h => he h.symm
      simp [alookup, he, ih, this]

theorem alookup_mem {β : Type} {l : List (Fp × β)} {k : Fp} {v : β}
    (h : alookup l k = some v) : (k, v) ∈ l := by
  induction l with
  | nil => simp [alookup] at h
  | cons e l ih =>
    obtain ⟨a, b⟩ := e
    by_cases he : a = k
    · simp [alookup, he] at h
      simp [List.mem_cons, he, h]
    · simp [alookup, he] at h
      exact List.mem_cons_of_mem _ (ih h)

theorem mem_alookup {β : Type} {l : List (Fp × β)} (hnd : (l.map Prod.fst).Nodup)
    {k : Fp} {v : β} (h : (k, v) ∈ l) : alookup l k = some v := by
  induction l with
  | nil => simp at h
  | cons e l ih =>
    simp only [List.map_cons, List.nodup_cons] at hnd
    rcases List.mem_cons.mp h with he | hm
    · rw [← he]; simp [alookup]
    · have hne : ¬(e.1 = k) := by
        intro hek
        exact hnd.1 (hek ▸ (List.mem_map.mpr ⟨(k, v), hm, rfl⟩))
      simp [alookup, hne, ih hnd.2 hm]

theorem aupdate_keys {β : Type} (l : List (Fp × β)) (k : Fp) (v : β) :
    (aupdate l k v).map Prod.fst = l.map Prod.fst := by
  unfold aupdate
  rw [List.map_map]
  apply List.map_congr_left
  intro e _
  by_cases he : e.1 = k <;> simp [he]

/-! ### Characterising the aggregation loop -/

namespace DuplicateFinderThread

/-- The successful `(fingerprint, path)` pairs among the results, in
completion order. -/
def succEntries (rs : List (Option Fp × Path)) : List (Fp × Path) :=
  rs.filterMap (fun r => r.1.map (fun h => (h, r.2)))

/-- The paths whose result carried fingerprint `h`, in completion order. -/
def pathsOf (rs : List (Option Fp × Path)) (h : Fp) : List Path :=
  ((succEntries rs).filter (fun e => decide (e.1 = h))).map Prod.snd

theorem match_option_id {β : Type} (x : Option β) :
    (match x with | some w => some w | none => (none : Option β)) = x := by
  cases x <;> rfl

theorem pathsOf_append (rs : List (Option Fp × Path)) (r : Option Fp × Path)
    (h : Fp) :
    pathsOf (rs ++ [r]) h =
      pathsOf rs h ++
        match r.1 with
        | some h2 => if h2 = h then [r.2] else []
        | none => [] := by
  cases hr : r.1 with
  | none => simp [pathsOf, succEntries, List.filterMap_append, hr]
  | some h2 =>
    by_cases hh : h2 = h <;>
      simp [pathsOf, succEntries, List.filterMap_append, hr, hh]

theorem runAgg_concat (rs : List (Option Fp × Path)) (r : Option Fp × Path) :
    runAgg (rs ++ [r]) = aggStep (runAgg rs) r := by
  simp [runAgg, List.foldl_append]

/-- The two dicts of the aggregation loop, characterised by lookup:
`hashes[h]` is the first path that produced `h`, and `duplicates[h]` is the
full path list of `h` exactly when `h` was produced at least twice. -/
theorem runAgg_lookup (rs : List (Option Fp × Path)) : ∀ h : Fp,
    alookup (runAgg rs).hashes h = (pathsOf rs h).head? ∧
    alookup (runAgg rs).duplicates h =
      if 2 ≤ (pathsOf rs h).length then some (pathsOf rs h) else none := by
  induction rs using List.reverseRecOn with
  | nil => intro h; simp [runAgg, emptyAgg, alookup, pathsOf, succEntries]
  | append_singleton rs r ih =>
    intro h
    rw [runAgg_concat]
    cases hr : r.1 with
    | none =>
      have hp := pathsOf_append rs r h
      rw [hr] at hp
      simp only [List.append_nil] at hp
      simpa [aggStep, hr, hp] using ih h
    | some h2 =>
      have hp := pathsOf_append rs r h
      rw [hr] at hp
      have ih2 := ih h2
      by_cases hh : h2 = h
      · subst hh
        simp only [if_pos rfl] at hp
        rcases hpl : pathsOf rs h2 with _ | ⟨q, qs⟩
        · -- first occurrence of h2: recorded in hashes
          rw [hpl] at hp ih2
          simp only [List.head?_nil] at ih2
          constructor
          · rw [aggStep]; simp only [hr, ih2.1]
            rw [alookup_append_single]
            simp [ih2.1, hp]
          · rw [aggStep]; simp only [hr, ih2.1]
            simp [ih2.2, hp, hpl]
        · rcases qs with _ | ⟨q2, qs2⟩
          · -- second occurrence: new group [q, r.2]
            rw [hpl] at hp ih2
            simp only [List.head?_cons] at ih2
            have hd2 : alookup (runAgg rs).duplicates h2 = none := by
              simpa using ih2.2
            constructor
            · rw [aggStep]; simp only [hr, ih2.1, hd2]
              simp [ih2.1, hp]
            · rw [aggStep]; simp only [hr, ih2.1, hd2]
              rw [alookup_append_single]
              simp [hd2, hp]
          · -- third or later occurrence: append to the group
            rw [hpl] at hp ih2
            simp only [List.head?_cons] at ih2
            have hd2 : alookup (runAgg rs).duplicates h2 =
                some (q :: q2 :: qs2) := by
              simpa using ih2.2
            constructor
            · rw [aggStep]; simp only [hr, ih2.1, hd2]
              simp [ih2.1, hp]
            · rw [aggStep]; simp only [hr, ih2.1, hd2]
              rw [alookup_aupdate]
              simp [hd2, hp]
      · -- the new result carries a different fingerprint: lookups at h unchanged
        simp only [if_neg hh, List.append_nil] at hp
        have ihh := ih h
        rcases hpl2 : pathsOf rs h2 with _ | ⟨q, qs⟩
        · rw [hpl2] at ih2
          simp only [List.head?_nil] at ih2
          constructor
          · rw [aggStep]; simp only [hr, ih2.1]
            rw [alookup_append_single]
            simp [ihh.1, hp, hh, match_option_id]
          · rw [aggStep]; simp only [hr, ih2.1]
            simp [ihh.2, hp]
        · rcases qs with _ | ⟨q2, qs2⟩
          · rw [hpl2] at ih2
            simp only [List.head?_cons] at ih2
            have hd2 : alookup (runAgg rs).duplicates h2 = none := by
              simpa using ih2.2
            constructor
            · rw [aggStep]; simp only [hr, ih2.1, hd2]
              simp [ihh.1, hp]
            · rw [aggStep]; simp only [hr, ih2.1, hd2]
              rw [alookup_append_single]
              simp [ihh.2, hp, hh, match_option_id]
          · rw [hpl2] at ih2
            simp only [List.head?_cons] at ih2
            have hd2 : alookup (runAgg rs).duplicates h2 =
                some (q :: q2 :: qs2) := by
              simpa using ih2.2
            constructor
            · rw [aggStep]; simp only [hr, ih2.1, hd2]
              simp [ihh.1, hp]
            · rw [aggStep]; simp only [hr, ih2.1, hd2]
              have hh2 : ¬(h = h2) := fun hx => hh hx.symm
              rw [alookup_aupdate]
              simp [ihh.2, hp, hh, hh2, match_option_id]

/-- Both dicts always have pairwise-distinct keys, as Python dicts do. -/
theorem runAgg_keys_nodup (rs : List (Option Fp × Path)) :
    ((runAgg rs).hashes.map Prod.fst).Nodup ∧
    ((runAgg rs).duplicates.map Prod.fst).Nodup := by
  induction rs using List.reverseRecOn with
  | nil => simp [runAgg, emptyAgg]
  | append_singleton rs r ih =>
    rw [runAgg_concat]
    cases hr : r.1 with
    | none => simpa [aggStep, hr] using ih
    | some h2 =>
      rw [aggStep]; simp only [hr]
      cases hls : alookup (runAgg rs).hashes h2 with
      | none =>
        have hmem := (alookup_eq_none _ _).mp hls
        constructor
        · simp [List.nodup_append, ih.1, hmem]
        · exact ih.2
      | some firstPath =>
        cases hds : alookup (runAgg rs).duplicates h2 with
        | none =>
          have hmem := (alookup_eq_none _ _).mp hds
          constructor
          · exact ih.1
          · simp [List.nodup_append, ih.2, hmem]
        | some grp =>
          constructor
          · exact ih.1
          · rw [aupdate_keys]; exact ih.2

/-! ### The scan pipeline -/

/-- The fingerprint the worker computes for a readable file. -/
def scanFp (H : Content → Fp) (rf : Path → Option (List Content)) (p : Path) :
    Fp :=
  hashChunks H ((rf p).getD [])

theorem succEntries_scan (H : Content → Fp) (rf : Path → Option (List Content))
    (arrival : List Path) :
    succEntries (scanResults H rf arrival) =
      (arrival.filter (fun p => (rf p).isSome)).map
        (fun p => (scanFp H rf p, p)) := by
  induction arrival with
  | nil => rfl
  | cons p l ih =>
    cases hp : rf p with
    | none => simpa [succEntries, scanResults, md5, hp] using ih
    | some cs => simpa [succEntries, scanResults, md5, scanFp, hp] using ih

/-- The group of fingerprint `h` is the arrival-ordered sublist of readable
files whose content hashes to `h`. -/
theorem pathsOf_scan (H : Content → Fp) (rf : Path → Option (List Content))
    (arrival : List Path) (h : Fp) :
    pathsOf (scanResults H rf arrival) h =
      arrival.filter (fun p => (rf p).isSome && decide (scanFp H rf p = h)) := by
  rw [pathsOf, succEntries_scan, List.filter_map, List.map_map,
    List.filter_filter]
  have hmap : (Prod.snd ∘ fun p => (scanFp H rf p, p)) = fun p : Path => p := rfl
  rw [hmap, List.map_id']
  congr 1
  funext a
  exact Bool.and_comm _ _

/-- One scan emits its progress events followed by the single terminal
`finished` signal, in both the zero-file and the general branch of `run`. -/
theorem run_eq (H : Content → Fp) (rf : Path → Option (List Content))
    (arrival : List Path) :
    run H rf arrival =
      (progressSeq arrival.length).map Event.progress
        ++ [Event.finished (duplicatesOf H rf arrival)] := by
  cases arrival with
  | nil => rfl
  | cons p l => simp [run, duplicatesOf]

/-- The progress percentages among the emitted events. -/
def progressOf (es : List Event) : List Nat :=
  es.filterMap
    (fun e => match e with
      | Event.progress v => some v
      | Event.finished _ => none)

theorem progressOf_run (H : Content → Fp) (rf : Path → Option (List Content))
    (arrival : List Path) :
    progressOf (run H rf arrival) = progressSeq arrival.length := by
  rw [run_eq, progressOf, List.filterMap_append, List.filterMap_map]
  have hcomp : ((fun e => match e with
      | Event.progress v => some v
      | Event.finished _ => none) ∘ Event.progress) =
      fun v : Nat => some v := rfl
  rw [hcomp]
  simp

theorem progressSeq_length (n : Nat) : (progressSeq n).length = n := by
  simp [progressSeq]

theorem progressSeq_pairwise (n : Nat) :
    (progressSeq n).Pairwise (· ≤ ·) := by
  unfold progressSeq
  apply List.pairwise_map.mpr
  apply (List.pairwise_lt_range n).imp
  intro a b hab
  exact Nat.div_le_div_right (Nat.mul_le_mul_right _ (by omega))

theorem progressSeq_getLast (n : Nat) (hn : n ≠ 0) :
    (progressSeq n).getLast? = some 100 := by
  obtain ⟨m, rfl⟩ := Nat.exists_eq_succ_of_ne_zero hn
  unfold progressSeq
  rw [List.range_succ, List.map_append, List.map_singleton,
    List.getLast?_concat]
  rw [Nat.mul_div_cancel_left 100 (Nat.succ_pos m)]

end DuplicateFinderThread

namespace DuplicateFinder

open DuplicateFinderThread

theorem display_lookup (hs : List (Fp × Path)) :
    ∀ (acc : List (Fp × List Path)) (h : Fp),
      alookup (display_duplicates acc hs) h =
        match alookup acc h with
        | some g => some g
        | none => (alookup hs h).map (fun p => [p]) := by
  induction hs with
  | nil =>
    intro acc h
    cases hx : alookup acc h <;> simp [display_duplicates, alookup, hx]
  | cons e l ih =>
    intro acc h
    have hstep : display_duplicates acc (e :: l) =
        display_duplicates
          (if (alookup acc e.1).isSome then acc else acc ++ [(e.1, [e.2])])
          l := rfl
    rw [hstep]
    by_cases hae : (alookup acc e.1).isSome
    · rw [if_pos hae, ih]
      by_cases heh : e.1 = h
      · subst heh
        obtain ⟨g, hg⟩ := Option.isSome_iff_exists.mp hae
        simp [alookup, hg]
      · simp [alookup, heh]
    · rw [if_neg hae, ih]
      have hnone : alookup acc e.1 = none :=
        Option.not_isSome_iff_eq_none.mp hae
      by_cases heh : e.1 = h
      · subst heh
        rw [alookup_append_single]
        simp [alookup, hnone]
      · rw [alookup_append_single]
        cases hacc : alookup acc h <;> simp [alookup, heh, hacc]

theorem display_keys_nodup (hs : List (Fp × Path)) :
    ∀ acc : List (Fp × List Path), (acc.map Prod.fst).Nodup →
      ((display_duplicates acc hs).map Prod.fst).Nodup := by
  induction hs with
  | nil => intro acc h; exact h
  | cons e l ih =>
    intro acc hacc
    have hstep : display_duplicates acc (e :: l) =
        display_duplicates
          (if (alookup acc e.1).isSome then acc else acc ++ [(e.1, [e.2])])
          l := rfl
    rw [hstep]
    apply ih
    by_cases hae : (alookup acc e.1).isSome
    · simpa [hae] using hacc
    · have hnone : alookup acc e.1 = none :=
        Option.not_isSome_iff_eq_none.mp hae
      have hmem := (alookup_eq_none _ _).mp hnone
      simp [hae, List.nodup_append, hacc, hmem]

/-- The all-files grouping, characterised by lookup: the group of `h` is
exactly the nonempty path list of `h`, singletons included. -/
theorem allGroupsOf_lookup (H : Content → Fp)
    (rf : Path → Option (List Content)) (arrival : List Path) (h : Fp) :
    alookup (allGroupsOf H rf arrival) h =
      if pathsOf (scanResults H rf arrival) h = [] then none
      else some (pathsOf (scanResults H rf arrival) h) := by
  rw [allGroupsOf, display_lookup]
  have h1 := (runAgg_lookup (scanResults H rf arrival) h).1
  have h2 := (runAgg_lookup (scanResults H rf arrival) h).2
  rw [duplicatesOf] at *
  rw [allHashesOf]
  rcases hpl : pathsOf (scanResults H rf arrival) h with _ | ⟨a, t⟩
  · rw [hpl] at h1 h2
    simp only [List.head?_nil] at h1
    simp only [List.length_nil] at h2
    simp [h1, h2]
  · rcases t with _ | ⟨b, t2⟩
    · rw [hpl] at h1 h2
      simp only [List.head?_cons] at h1
      have hd : alookup (runAgg (scanResults H rf arrival)).duplicates h =
          none := by simpa using h2
      simp [h1, hd]
    · rw [hpl] at h1 h2
      have hd : alookup (runAgg (scanResults H rf arrival)).duplicates h =
          some (a :: b :: t2) := by simpa using h2
      simp [hd]

theorem allGroupsOf_keys_nodup (H : Content → Fp)
    (rf : Path → Option (List Content)) (arrival : List Path) :
    ((allGroupsOf H rf arrival).map Prod.fst).Nodup := by
  apply display_keys_nodup
  exact (runAgg_keys_nodup (scanResults H rf arrival)).2

/-- Every entry of the all-files grouping carries exactly the path list of
its fingerprint. -/
theorem allGroupsOf_entry (H : Content → Fp) (rf : Path → Option (List Content))
    (arrival : List Path) {e : Fp × List Path}
    (he : e ∈ allGroupsOf H rf arrival) :
    e.2 = pathsOf (scanResults H rf arrival) e.1 := by
  have kn := allGroupsOf_keys_nodup H rf arrival
  have hl : alookup (allGroupsOf H rf arrival) e.1 = some e.2 :=
    mem_alookup kn (by simpa using he)
  rw [allGroupsOf_lookup] at hl
  by_cases hp : pathsOf (scanResults H rf arrival) e.1 = []
  · rw [if_pos hp] at hl; exact absurd hl (by simp)
  · rw [if_neg hp] at hl; exact (Option.some_inj.mp hl).symm

end DuplicateFinder

namespace DuplicateFinderThread

theorem mem_pathsOf_scan (H : Content → Fp) (rf : Path → Option (List Content))
    (arrival : List Path) (h : Fp) (p : Path) :
    p ∈ pathsOf (scanResults H rf arrival) h ↔
      p ∈ arrival ∧ (rf p).isSome = true ∧ scanFp H rf p = h := by
  rw [pathsOf_scan]
  simp [List.mem_filter, and_assoc]

end DuplicateFinderThread

theorem foldl_append_eq_flatten (cs : List Content) (acc : Content) :
    cs.foldl (fun st c => st ++ c) acc = acc ++ cs.flatten := by
  induction cs generalizing acc with
  | nil => simp
  | cons c cs ih => simp [ih, List.append_assoc]

/-- Folding the chunks into the incremental hash state digests exactly the
concatenation of all chunks, i.e. the full file content. -/
theorem hashChunks_eq (H : Content → Fp) (chunks : List Content) :
    hashChunks H chunks = H chunks.flatten := by
  rw [hashChunks, foldl_append_eq_flatten]
  simp

end Archivizm

namespace Archivizm.DuplicateFinderThread

/-- Whether an emitted event is the terminal `finished` signal. -/
def isFinished : Event → Bool
  | Event.finished _ => true
  | Event.progress _ => false

end Archivizm.DuplicateFinderThread

section Claims

open Archivizm Archivizm.DuplicateFinderThread Archivizm.DuplicateFinder

/-- Claim C6: for every file path, the fingerprint worker returns the digest
of the full file content (the concatenation of all chunks folded into the
hash state) paired with the path when the chunked read succeeds, and
`(none, path)` on any read failure; being a total function of the read
outcome, it never propagates an exception to its caller.  Both the
Archivizm worker and the DupeCheck worker satisfy this. -/
theorem md5_digest_of_full_content (H : Content → Fp)
    (rf : Path → Option (List Content)) (p : Path) :
    DuplicateFinderThread.md5 H rf p
        = ((rf p).map (fun chunks => H chunks.flatten), p)
    ∧ DupeCheck.md5 H rf p
        = ((rf p).map (fun chunks => H chunks.flatten), p) := by
  cases hp : rf p <;>
    simp [DuplicateFinderThread.md5, DupeCheck.md5, hashChunks_eq, hp]

/-- Claim C10: the second component of the worker result is the input path
itself, in the success and in the failure case alike, for both workers, so
every result tuple can be correlated back to its file. -/
theorem md5_second_component_is_path (H : Content → Fp)
    (rf : Path → Option (List Content)) (p : Path) :
    (DuplicateFinderThread.md5 H rf p).2 = p
    ∧ (DupeCheck.md5 H rf p).2 = p := by
  cases hp : rf p <;> simp [DuplicateFinderThread.md5, DupeCheck.md5, hp]

/-- Claim C8: one scan emits exactly one terminal `finished` signal; it is
the last event, and everything before it is exactly one progress event per
enumerated file, so the terminal result comes only after every result has
been consumed, and no second terminal result exists. -/
theorem run_terminal_once (H : Content → Fp)
    (rf : Path → Option (List Content)) (arrival : List Path) :
    (run H rf arrival).filter isFinished
        = [Event.finished (duplicatesOf H rf arrival)]
    ∧ (run H rf arrival).getLast?
        = some (Event.finished (duplicatesOf H rf arrival))
    ∧ (run H rf arrival).dropLast
        = (progressSeq arrival.length).map Event.progress := by
  refine ⟨?_, ?_, ?_⟩ <;> rw [run_eq]
  · rw [List.filter_append, List.filter_map]
    have hcomp : (isFinished ∘ Event.progress) = fun _ : Nat => false := rfl
    rw [hcomp]
    simp [isFinished]
  · exact List.getLast?_concat _
  · exact List.dropLast_concat

/-- Claim C4 counterexample: scanning two files emits the percentage values
50 and 100; the final emitted value is 100, which is not the number of
enumerated files (2), refuting "the final emitted value equals
total_files_seen". -/
theorem run_progress_final_counterexample :
    progressOf (run toyH toyFS2 ["x.bin", "y.bin"]) = [50, 100]
    ∧ (progressOf (run toyH toyFS2 ["x.bin", "y.bin"])).getLast? = some 100
    ∧ (100 : Nat) ≠ (["x.bin", "y.bin"] : List Path).length := by decide

/-- Claim C4 (amended): during one scan of at least one enumerated file,
one progress value is emitted per processed file, the emitted sequence is
monotonically non-decreasing, and the final emitted value is 100 — the
percentage reached when processed equals total_files_seen. -/
theorem run_progress_monotone_final (H : Content → Fp)
    (rf : Path → Option (List Content)) (arrival : List Path)
    (hne : arrival ≠ []) :
    (progressOf (run H rf arrival)).length = arrival.length
    ∧ (progressOf (run H rf arrival)).Pairwise (· ≤ ·)
    ∧ (progressOf (run H rf arrival)).getLast? = some 100 := by
  rw [progressOf_run]
  exact ⟨progressSeq_length _, progressSeq_pairwise _,
    progressSeq_getLast _ (fun h => hne (List.length_eq_zero.mp h))⟩

/-- Witness for the amended claim C4 at a concrete two-file scan. -/
theorem run_progress_monotone_final_witness :
    (["x.bin", "y.bin"] : List Path) ≠ []
    ∧ ((progressOf (run toyH toyFS2 ["x.bin", "y.bin"])).length
          = (["x.bin", "y.bin"] : List Path).length
        ∧ (progressOf (run toyH toyFS2 ["x.bin", "y.bin"])).Pairwise (· ≤ ·)
        ∧ (progressOf (run toyH toyFS2 ["x.bin", "y.bin"])).getLast? = some 100) :=
  ⟨by decide, run_progress_monotone_final toyH toyFS2 ["x.bin", "y.bin"] (by decide)⟩

/-- Claim C2: over any completion order with distinct paths, the final
all-files grouping partitions exactly the successfully hashed paths: the
concatenation of all group lists has no repeated path (so no path is in two
groups, nor twice in one group) and contains precisely the paths whose read
succeeded. -/
theorem allGroups_partition (H : Content → Fp)
    (rf : Path → Option (List Content)) (arrival : List Path)
    (hnd : arrival.Nodup) :
    (((allGroupsOf H rf arrival).map Prod.snd).flatten).Nodup
    ∧ ∀ p : Path,
        p ∈ ((allGroupsOf H rf arrival).map Prod.snd).flatten
          ↔ p ∈ arrival ∧ (rf p).isSome = true := by
  constructor
  · rw [List.nodup_flatten]
    constructor
    · intro l hl
      obtain ⟨e, he, rfl⟩ := List.mem_map.mp hl
      rw [allGroupsOf_entry H rf arrival he, pathsOf_scan]
      exact hnd.filter _
    · apply List.pairwise_map.mpr
      have kp : (allGroupsOf H rf arrival).Pairwise (fun e1 e2 => e1.1 ≠ e2.1) :=
        List.pairwise_map.mp (allGroupsOf_keys_nodup H rf arrival)
      refine List.Pairwise.imp_of_mem ?_ kp
      intro e1 e2 h1 h2 hne p hp1 hp2
      rw [allGroupsOf_entry H rf arrival h1] at hp1
      rw [allGroupsOf_entry H rf arrival h2] at hp2
      have f1 := ((mem_pathsOf_scan H rf arrival e1.1 p).mp hp1).2.2
      have f2 := ((mem_pathsOf_scan H rf arrival e2.1 p).mp hp2).2.2
      exact hne (f1.symm.trans f2)
  · intro p
    constructor
    · intro hp
      obtain ⟨l, hl, hpl⟩ := List.mem_flatten.mp hp
      obtain ⟨e, he, rfl⟩ := List.mem_map.mp hl
      rw [allGroupsOf_entry H rf arrival he] at hpl
      have hm := (mem_pathsOf_scan H rf arrival e.1 p).mp hpl
      exact ⟨hm.1, hm.2.1⟩
    · rintro ⟨hpa, hps⟩
      have hmem : p ∈ pathsOf (scanResults H rf arrival) (scanFp H rf p) :=
        (mem_pathsOf_scan H rf arrival _ p).mpr ⟨hpa, hps, rfl⟩
      have hne : pathsOf (scanResults H rf arrival) (scanFp H rf p) ≠ [] := by
        intro h0; rw [h0] at hmem; exact (List.not_mem_nil p) hmem
      have hlk : alookup (allGroupsOf H rf arrival) (scanFp H rf p)
          = some (pathsOf (scanResults H rf arrival) (scanFp H rf p)) := by
        rw [allGroupsOf_lookup, if_neg hne]
      apply List.mem_flatten.mpr
      refine ⟨pathsOf (scanResults H rf arrival) (scanFp H rf p), ?_, hmem⟩
      exact List.mem_map.mpr ⟨_, alookup_mem hlk, rfl⟩

/-- Witness for claim C2 at the concrete three-file scenario. -/
theorem allGroups_partition_witness :
    (["a.txt", "b.txt", "c.txt"] : List Path).Nodup
    ∧ (("b.txt" : Path)
          ∈ ((allGroupsOf toyH toyFS3 ["a.txt", "b.txt", "c.txt"]).map
              Prod.snd).flatten
        ↔ ("b.txt" : Path) ∈ (["a.txt", "b.txt", "c.txt"] : List Path)
          ∧ (toyFS3 "b.txt").isSome = true) :=
  ⟨by decide,
    (allGroups_partition toyH toyFS3 ["a.txt", "b.txt", "c.txt"]
      (by decide)).2 "b.txt"⟩

/-- Claim C5: with an unreadable file among the enumerated files, the scan
still emits its terminal result (the worker maps the read failure to a
`none` fingerprint instead of an exception, so the loop runs to
completion), and the unreadable path appears in no group of the duplicates
dict nor of the all-files grouping. -/
theorem scan_error_isolated (H : Content → Fp)
    (rf : Path → Option (List Content)) (arrival : List Path) (bad : Path)
    (_hmem : bad ∈ arrival) (hbad : rf bad = none) :
    (run H rf arrival).getLast?
        = some (Event.finished (duplicatesOf H rf arrival))
    ∧ (∀ h g, alookup (duplicatesOf H rf arrival) h = some g → bad ∉ g)
    ∧ (∀ h g, alookup (allGroupsOf H rf arrival) h = some g → bad ∉ g) := by
  refine ⟨?_, ?_, ?_⟩
  · rw [run_eq]; exact List.getLast?_concat _
  · intro h g hg hbg
    have hc := (runAgg_lookup (scanResults H rf arrival) h).2
    rw [duplicatesOf, hc] at hg
    by_cases h2 : 2 ≤ (pathsOf (scanResults H rf arrival) h).length
    · rw [if_pos h2] at hg
      have hin : bad ∈ pathsOf (scanResults H rf arrival) h := by
        rw [Option.some_inj.mp hg]; exact hbg
      have hs := ((mem_pathsOf_scan H rf arrival h bad).mp hin).2.1
      rw [hbad] at hs; exact absurd hs (by simp)
    · rw [if_neg h2] at hg; exact absurd hg (by simp)
  · intro h g hg hbg
    rw [allGroupsOf_lookup] at hg
    by_cases hp : pathsOf (scanResults H rf arrival) h = []
    · rw [if_pos hp] at hg; exact absurd hg (by simp)
    · rw [if_neg hp] at hg
      have hin : bad ∈ pathsOf (scanResults H rf arrival) h := by
        rw [Option.some_inj.mp hg]; exact hbg
      have hs := ((mem_pathsOf_scan H rf arrival h bad).mp hin).2.1
      rw [hbad] at hs; exact absurd hs (by simp)

/-- Witness for claim C5 with one unreadable file among three readable
ones. -/
theorem scan_error_isolated_witness :
    ("bad.dat" : Path) ∈ (["bad.dat", "u.dat", "v.dat", "w.dat"] : List Path)
    ∧ toyFSerr "bad.dat" = none
    ∧ (run toyH toyFSerr ["bad.dat", "u.dat", "v.dat", "w.dat"]).getLast?
        = some (Event.finished
            (duplicatesOf toyH toyFSerr ["bad.dat", "u.dat", "v.dat", "w.dat"])) :=
  ⟨by decide, rfl,
    (scan_error_isolated toyH toyFSerr ["bad.dat", "u.dat", "v.dat", "w.dat"]
      "bad.dat" (by decide) rfl).1⟩

/-- For the Archivizm thread, a fixed filesystem and two completion orders
that are permutations of each other yield the same duplicate-group content,
viewing each group as the set of paths stored under its fingerprint. -/
theorem scan_order_invariant (H : Content → Fp)
    (rf : Path → Option (List Content)) (a1 a2 : List Path)
    (hperm : a1.Perm a2) (h : Fp) (p : Path) :
    (p ∈ (alookup (duplicatesOf H rf a1) h).getD [])
      ↔ p ∈ (alookup (duplicatesOf H rf a2) h).getD [] := by
  have l1 := (runAgg_lookup (scanResults H rf a1) h).2
  have l2 := (runAgg_lookup (scanResults H rf a2) h).2
  rw [pathsOf_scan] at l1 l2
  rw [duplicatesOf, l1, duplicatesOf, l2]
  have hq := hperm.filter (fun q => (rf q).isSome && decide (scanFp H rf q = h))
  have hlen2 := hq.length_eq
  by_cases hl : 2 ≤ (a1.filter
      (fun q => (rf q).isSome && decide (scanFp H rf q = h))).length
  · rw [if_pos hl, if_pos (by omega)]
    simpa using hq.mem_iff
  · rw [if_neg hl, if_neg (by omega)]

/-- Instance of the order-invariance of the Archivizm thread at the
three-file scenario under two completion orders. -/
theorem scan_order_invariant_witness :
    (["a.txt", "b.txt", "c.txt"] : List Path).Perm ["c.txt", "b.txt", "a.txt"]
    ∧ (("b.txt" : Path)
          ∈ (alookup (duplicatesOf toyH toyFS3 ["a.txt", "b.txt", "c.txt"])
              (toyH helloBytes)).getD []
        ↔ ("b.txt" : Path)
          ∈ (alookup (duplicatesOf toyH toyFS3 ["c.txt", "b.txt", "a.txt"])
              (toyH helloBytes)).getD []) :=
  ⟨by decide,
    scan_order_invariant toyH toyFS3 ["a.txt", "b.txt", "c.txt"]
      ["c.txt", "b.txt", "a.txt"] (by decide) (toyH helloBytes) "b.txt"⟩

/-- Claim C7, evaluated on the DupeCheck variant the claim also cites: for
a fixed filesystem with x.bin = y.bin = hello bytes, two runs whose workers
complete in the orders [x.bin, y.bin] and [y.bin, x.bin] make
DupeCheck.find_duplicates report the duplicate-group content as the
path-set containing only x.bin in one run and only y.bin in the other —
not identical across the two runs — because line 62 of src/DupeCheck.py
stores only the first-seen path of each fingerprint.  The Archivizm
finished dict holds the same two members under both orders (and is
order-invariant in general, by scan_order_invariant). -/
theorem dupeCheck_order_dependent :
    DupeCheck.find_duplicates toyH toyFS2 ["x.bin", "y.bin"]
      = [(toyH helloBytes, ["x.bin"])]
    ∧ DupeCheck.find_duplicates toyH toyFS2 ["y.bin", "x.bin"]
      = [(toyH helloBytes, ["y.bin"])]
    ∧ duplicatesOf toyH toyFS2 ["x.bin", "y.bin"]
      = [(toyH helloBytes, ["x.bin", "y.bin"])]
    ∧ duplicatesOf toyH toyFS2 ["y.bin", "x.bin"]
      = [(toyH helloBytes, ["y.bin", "x.bin"])] := by decide

/-- Claim C1, evaluated at the scenario of the spec: with
a.txt = b.txt = hello bytes and c.txt = world bytes, the DupeCheck variant
returns a duplicates dict whose only group is just a.txt — the second copy
b.txt is missing (line 62 of src/DupeCheck.py never appends the current
file path), refuting the claim for src/DupeCheck.py — while the Archivizm
thread produces the claimed single group holding exactly a.txt and b.txt
and not c.txt. -/
theorem dupeCheck_drops_second_duplicate :
    DupeCheck.find_duplicates toyH toyFS3 ["a.txt", "b.txt", "c.txt"]
      = [(toyH helloBytes, ["a.txt"])]
    ∧ duplicatesOf toyH toyFS3 ["a.txt", "b.txt", "c.txt"]
      = [(toyH helloBytes, ["a.txt", "b.txt"])] := by decide

/-- Claim C3, evaluated: with two files of equal content, the DupeCheck
duplicates dict maps their fingerprint to a one-element group — fewer than
the two members the invariant requires — while the Archivizm dict on the
same input holds the correct two-element group. -/
theorem dupeCheck_singleton_group :
    DupeCheck.find_duplicates toyH toyFS2 ["x.bin", "y.bin"]
      = [(toyH helloBytes, ["x.bin"])]
    ∧ ((DupeCheck.find_duplicates toyH toyFS2 ["x.bin", "y.bin"]).map
        (fun e => e.2.length)) = [1]
    ∧ duplicatesOf toyH toyFS2 ["x.bin", "y.bin"]
      = [(toyH helloBytes, ["x.bin", "y.bin"])] := by decide

/-- Claim C9 counterexample: an existing path that is not a directory is
not rejected — the validation consults only the existence check, so the
thread is started; and on the empty enumeration that os.walk yields for a
non-directory root the thread emits a full terminal result rather than
surfacing a synchronous failure. -/
theorem find_duplicates_not_directory_counterexample :
    DuplicateFinder.find_duplicates "/mnt/usb/file.bin" none (fun _ => true)
      = DuplicateFinder.StartResult.started "/mnt/usb/file.bin"
    ∧ run toyH (fun _ => none) [] = [Event.finished []] := by decide

/-- Claim C9 (amended): the scan fails fast — synchronously, with no thread
and hence no worker, progress or result — exactly when the resolved root is
missing, empty, or fails the os.path.exists check; whether the root is a
directory is never consulted. -/
theorem find_duplicates_start_validation (text : String)
    (mp : Option Path) (ex : Path → Bool) :
    DuplicateFinder.find_duplicates text mp ex
        = DuplicateFinder.StartResult.invalid
      ↔ resolveDirectory text mp = none
        ∨ ∃ d, resolveDirectory text mp = some d
            ∧ (d = "" ∨ ex d = false) := by
  cases hd : resolveDirectory text mp with
  | none => simp [DuplicateFinder.find_duplicates, hd]
  | some d =>
    by_cases hde : d = ""
    · simp [DuplicateFinder.find_duplicates, hd, hde]
    · by_cases hex : ex d = false
      · simp [DuplicateFinder.find_duplicates, hd, hde, hex]
      · simp [DuplicateFinder.find_duplicates, hd, hde, hex]

end Claims
